import Mathlib

/-!
Verification of the FDC preprocessing pipeline (managers/fdc_preprocess.py).

The Python source is shallowly embedded below.  Strings are modelled by Lean
strings (lists of characters); the regular expressions used by the source are
specialised to the exact patterns it builds and executed by explicit scanners;
fallible operations (the Python code can raise TypeError on non-string records
and KeyError inside the synonym substitution callback) return Except Unit.
External gensim components that do not live in this repository (the lemmatizer
and the Phrases collocation model) are abstracted as function parameters; the
repository code that drives them is embedded faithfully.
-/

namespace FdcPre

/-! ### Characters

Python regular expressions classify word characters with backslash-w; on the
ASCII range this is letters, digits and the underscore character. -/

def isWordChar (c : Char) : Bool := c.isAlpha || c.isDigit || c = '_'

/-- string.punctuation in Python is the ASCII characters with codes
33-47, 58-64, 91-96 and 123-126. -/
def isPunct (c : Char) : Bool :=
  let n := c.toNat
  (decide (33 ≤ n) && decide (n ≤ 47)) || (decide (58 ≤ n) && decide (n ≤ 64)) ||
  (decide (91 ≤ n) && decide (n ≤ 96)) || (decide (123 ≤ n) && decide (n ≤ 126))

/-- ASCII model of str.lower / the lowering performed by the lower filter. -/
def lowerChar (c : Char) : Char :=
  if 65 ≤ c.toNat ∧ c.toNat ≤ 90 then Char.ofNat (c.toNat + 32) else c

def pyLower (s : String) : String := String.mk (s.data.map lowerChar)

/-! ### Whitespace splitting and joining

Python str.split() with no argument splits on runs of whitespace and never
produces empty tokens; str.split with an explicit single-space separator cuts
at every space and keeps empty pieces.  " ".join is joinTokens below. -/

def pySplitLAux : List Char → List Char → List (List Char)
  | [], acc => if acc.isEmpty then [] else [acc.reverse]
  | c :: cs, acc =>
    if c.isWhitespace then
      if acc.isEmpty then pySplitLAux cs []
      else acc.reverse :: pySplitLAux cs []
    else pySplitLAux cs (c :: acc)

def pySplitL (s : String) : List (List Char) := pySplitLAux s.data []

def pySplit (s : String) : List String := (pySplitL s).map (fun t => String.mk t)

/-- Space-join at the character level, modelling the " ".join of Python. -/
def joinTokens : List (List Char) → List Char
  | [] => []
  | t :: ts =>
    match ts with
    | [] => t
    | _ :: _ => t ++ ' ' :: joinTokens ts

/-- Space-join on strings, used where the source joins token lists. -/
def joinWords (ws : List String) : String :=
  String.mk (joinTokens (ws.map String.data))

/-- str.split with the explicit single-space separator, as used by get_vocabs:
empty pieces are kept, and splitting the empty string gives one empty piece. -/
def splitOnSpaceAux : List Char → List Char → List String
  | [], acc => [String.mk acc.reverse]
  | c :: cs, acc =>
    if c = ' ' then String.mk acc.reverse :: splitOnSpaceAux cs []
    else splitOnSpaceAux cs (c :: acc)

def splitOnSpace (s : String) : List String := splitOnSpaceAux s.data []

/-! ### The gensim preprocessing filters used by the source

gpp.strip_punctuation substitutes every maximal run of punctuation characters
by a single space; gpp.strip_multiple_whitespaces does the same for whitespace
runs; gpp.strip_numeric deletes every digit run (deleting runs of digits is
deleting each digit); gpp.strip_short keeps the whitespace-split tokens of
length at least minsize and rejoins them with single spaces. -/

def stripRunsAux (p : Char → Bool) (inRun : Bool) : List Char → List Char
  | [] => []
  | c :: cs =>
    if p c then
      if inRun then stripRunsAux p true cs else ' ' :: stripRunsAux p true cs
    else c :: stripRunsAux p false cs

def strip_punctuation (s : String) : String :=
  String.mk (stripRunsAux isPunct false s.data)

def strip_multiple_whitespaces (s : String) : String :=
  String.mk (stripRunsAux Char.isWhitespace false s.data)

def strip_numeric (s : String) : String :=
  String.mk (s.data.filter (fun c => !c.isDigit))

def strip_short (s : String) (minsize : Nat) : String :=
  String.mk (joinTokens ((pySplitL s).filter (fun e => decide (minsize ≤ e.length))))

/-! ### Stopwords (_generate_custom_stopwords, _custom_remove_stopwords)

The base gensim stopword set and the two word lists read from files are
parameters; the builder extends the base list with the additions and then
filters out the removals, and the caller only ever uses the resulting
frozenset through membership. -/

def generate_custom_stopwords (base to_add to_remove : List String) : List String :=
  (base ++ to_add).filter (fun x => !(to_remove.contains x))

def custom_remove_stopwords (s : String) (stopwords : List String) : String :=
  String.mk (joinTokens
    ((pySplitL s).filter (fun w => !(stopwords.contains (String.mk w)))))

/-! ### Synonym mapping (_map_synonyms)

The source builds the alternation of the patterns backslash-b key backslash-b
over the table keys (each key re.escape-d, hence literal) and substitutes with
a callback that looks the matched text up in the table.  The scanner below
executes exactly that regex: re.sub walks the text left to right, at each
position tries the alternatives in key order, replaces a match and resumes
after it; a word boundary holds between two positions when exactly one of the
neighbouring characters is a word character.  Fuel bounds the recursion; one
unit per consumed character (or per whole match) suffices, and callers pass
length + 1. -/

def optWord : Option Char → Bool
  | none => false
  | some c => isWordChar c

def wordBoundary (l r : Option Char) : Bool := optWord l != optWord r

/-- Does the alternative for key k match at the current position?  prev is the
character just before the position, chars the rest of the text. -/
def matchKeyAt (prev : Option Char) (chars : List Char) (k : List Char) : Bool :=
  (chars.take k.length == k)
    && wordBoundary prev chars.head?
    && wordBoundary
        (match k.getLast? with
          | some c => some c
          | none => prev)
        ((chars.drop k.length).head?)

def reSubAux (table : List (String × String)) :
    Nat → Option Char → List Char → Except Unit (List Char)
  | 0, _, chars => Except.ok chars
  | Nat.succ fuel, prev, chars =>
    match (table.map Prod.fst).find? (fun k => matchKeyAt prev chars k.data) with
    | none =>
      match chars with
      | [] => Except.ok []
      | c :: cs => (reSubAux table fuel (some c) cs).map (fun r => c :: r)
    | some k =>
      match table.lookup k with
      | none => Except.error ()
      | some v =>
        match k.data with
        | [] =>
          -- a zero-width match: the replacement is emitted, then one
          -- character is copied before scanning resumes
          match chars with
          | [] => Except.ok v.data
          | c :: cs => (reSubAux table fuel (some c) cs).map (fun r => v.data ++ c :: r)
        | _ :: _ =>
          (reSubAux table fuel k.data.getLast? (chars.drop k.data.length)).map
            (fun r => v.data ++ r)

def map_synonyms (text : String) (table : List (String × String)) : Except Unit String :=
  -- joining zero alternatives yields the empty pattern, which matches the
  -- empty string already at position 0; the callback then evaluates
  -- table[match] for the empty-string key, absent from the table: KeyError
  if table.isEmpty then Except.error ()
  else (reSubAux table (text.data.length + 1) none text.data).map
    (fun cs => String.mk cs)

/-! ### The filter chain (_build_custom_filter_list)

The source appends one closure per enabled flag, consulting the flags in a
fixed textual order.  The closures are represented by tags interpreted by
applyFilter; the data each closure captures (synonym table, stopword lists,
minimum length) lives in the configuration record, and the external gensim
lemmatizer is the function parameter lem. -/

inductive FilterStep
  | lower
  | map_synonym
  | strip_punctuation
  | strip_multiple_whitespaces
  | strip_numeric
  | remove_stopwords
  | strip_short
  | lemmatize
deriving DecidableEq

structure FilterConfig where
  lower : Bool
  map_synonym : Bool
  synonym_map : List (String × String)
  strip_punctuation : Bool
  strip_multiple_whitespaces : Bool
  strip_numeric : Bool
  remove_stopwords : Bool
  stopwords_base : List String
  stopwords_to_add : List String
  stopwords_to_remove : List String
  strip_short : Bool
  strip_short_minsize : Nat
  lemmatize : Bool

def build_custom_filter_list (cfg : FilterConfig) : List FilterStep :=
  let custom_filters : List FilterStep := []
  let custom_filters :=
    if cfg.lower then custom_filters ++ [FilterStep.lower] else custom_filters
  let custom_filters :=
    if cfg.map_synonym then custom_filters ++ [FilterStep.map_synonym] else custom_filters
  let custom_filters :=
    if cfg.strip_punctuation then custom_filters ++ [FilterStep.strip_punctuation]
    else custom_filters
  let custom_filters :=
    if cfg.strip_multiple_whitespaces then
      custom_filters ++ [FilterStep.strip_multiple_whitespaces]
    else custom_filters
  let custom_filters :=
    if cfg.strip_numeric then custom_filters ++ [FilterStep.strip_numeric]
    else custom_filters
  let custom_filters :=
    if cfg.remove_stopwords then custom_filters ++ [FilterStep.remove_stopwords]
    else custom_filters
  let custom_filters :=
    if cfg.strip_short then custom_filters ++ [FilterStep.strip_short]
    else custom_filters
  let custom_filters :=
    if cfg.lemmatize then custom_filters ++ [FilterStep.lemmatize] else custom_filters
  custom_filters

/-- The canonical ordering of the eight filters, as fixed by the source text. -/
def canonical_filter_order : List FilterStep :=
  [FilterStep.lower, FilterStep.map_synonym, FilterStep.strip_punctuation,
   FilterStep.strip_multiple_whitespaces, FilterStep.strip_numeric,
   FilterStep.remove_stopwords, FilterStep.strip_short, FilterStep.lemmatize]

def filter_enabled (cfg : FilterConfig) : FilterStep → Bool
  | FilterStep.lower => cfg.lower
  | FilterStep.map_synonym => cfg.map_synonym
  | FilterStep.strip_punctuation => cfg.strip_punctuation
  | FilterStep.strip_multiple_whitespaces => cfg.strip_multiple_whitespaces
  | FilterStep.strip_numeric => cfg.strip_numeric
  | FilterStep.remove_stopwords => cfg.remove_stopwords
  | FilterStep.strip_short => cfg.strip_short
  | FilterStep.lemmatize => cfg.lemmatize

def applyFilter (cfg : FilterConfig) (lem : String → String) (st : FilterStep)
    (s : String) : Except Unit String :=
  match st with
  | FilterStep.lower => Except.ok (pyLower s)
  | FilterStep.map_synonym => map_synonyms s cfg.synonym_map
  | FilterStep.strip_punctuation => Except.ok (strip_punctuation s)
  | FilterStep.strip_multiple_whitespaces => Except.ok (strip_multiple_whitespaces s)
  | FilterStep.strip_numeric => Except.ok (strip_numeric s)
  | FilterStep.remove_stopwords =>
    Except.ok (custom_remove_stopwords s
      (generate_custom_stopwords cfg.stopwords_base cfg.stopwords_to_add
        cfg.stopwords_to_remove))
  | FilterStep.strip_short => Except.ok (strip_short s cfg.strip_short_minsize)
  | FilterStep.lemmatize => Except.ok (lem s)

/-- gpp.preprocess_string applies the filters in sequence. -/
def apply_filters (cfg : FilterConfig) (lem : String → String) :
    List FilterStep → String → Except Unit String
  | [], s => Except.ok s
  | f :: fs, s =>
    match applyFilter cfg lem f s with
    | Except.error e => Except.error e
    | Except.ok s2 => apply_filters cfg lem fs s2

/-- One cell of the pandas column: either a proper string or a non-string
value such as None / NaN. -/
inductive Record
  | null
  | str (s : String)
deriving DecidableEq

/-- gpp.preprocess_string: coerce to text (raising on non-strings), run the
filters, split the final string on whitespace. -/
def preprocess_string (cfg : FilterConfig) (lem : String → String)
    (filters : List FilterStep) : Record → Except Unit (List String)
  | Record.null => Except.error ()
  | Record.str s =>
    match apply_filters cfg lem filters s with
    | Except.error e => Except.error e
    | Except.ok r => Except.ok (pySplit r)

/-- pandas Series.apply: elementwise, and the first raised exception aborts
the whole call. -/
def applySeries (f : Record → Except Unit (List String)) :
    List Record → Except Unit (List (List String))
  | [] => Except.ok []
  | x :: xs =>
    match f x with
    | Except.error e => Except.error e
    | Except.ok y =>
      match applySeries f xs with
      | Except.error e => Except.error e
      | Except.ok ys => Except.ok (y :: ys)

/-! ### Phrase generation (_generate_phrase)

The gensim Phrases / Phraser models are external; they enter as the function
parameters loaded_model (the persisted model applied in load mode) and
trained_model (the model trained on the full corpus in train mode).  The
effects list records the side effects the source performs in each branch. -/

inductive PhraseEffect
  | load_model
  | train_model
  | save_model
  | export_phrases
deriving DecidableEq

structure PhraseConfig where
  generate_phrase : Bool

def generate_phrase (pc : PhraseConfig) (load_model : Bool)
    (loaded_model : List String → List String)
    (trained_model : List (List String) → List String → List String)
    (pd_data : List (List String)) : List (List String) × List PhraseEffect :=
  if !pc.generate_phrase then (pd_data, [])
  else if load_model then
    (pd_data.map loaded_model, [PhraseEffect.load_model])
  else
    (pd_data.map (trained_model pd_data),
      [PhraseEffect.train_model, PhraseEffect.save_model, PhraseEffect.export_phrases])

/-- The elementwise function the phrase stage maps over the corpus. -/
def phrase_map (pc : PhraseConfig) (load_model : Bool)
    (loaded_model : List String → List String)
    (trained_model : List (List String) → List String → List String)
    (corpus : List (List String)) : List String → List String :=
  if !pc.generate_phrase then fun x => x
  else if load_model then loaded_model
  else trained_model corpus

/-! ### The orchestrator (preprocess_column) -/

def preprocess_column (cfg : FilterConfig) (lem : String → String)
    (pc : PhraseConfig) (load_model : Bool)
    (loaded_model : List String → List String)
    (trained_model : List (List String) → List String → List String)
    (records : List Record) : Except Unit (List String) :=
  let custom_filters := build_custom_filter_list cfg
  match applySeries (fun x => preprocess_string cfg lem custom_filters x) records with
  | Except.error e => Except.error e
  | Except.ok pd_data =>
    let pd_data := (generate_phrase pc load_model loaded_model trained_model pd_data).1
    Except.ok (pd_data.map (fun x => joinWords x))

/-! ### Vocabulary extraction (get_vocabs)

The source splits every row on single spaces, deduplicates through a Python
set and sorts with key=str.lower.  Set iteration order is arbitrary; the model
keeps the first occurrence, and the sort is the stable sort by the
lower-cased key, so every order-insensitive fact (membership, length, the
sorted key sequence) agrees with the source. -/

def dedupAux (seen : List String) : List String → List String
  | [] => []
  | x :: xs =>
    if seen.contains x then dedupAux seen xs else x :: dedupAux (x :: seen) xs

def dedupKeepFirst (l : List String) : List String := dedupAux [] l

/-- Python string comparison: lexicographic on code points. -/
def lexLt : List Char → List Char → Bool
  | [], [] => false
  | [], _ :: _ => true
  | _ :: _, [] => false
  | a :: as, b :: bs => if a = b then lexLt as bs else decide (a.toNat < b.toNat)

/-- Stable insertion by the lower-cased key. -/
def insertLower (x : String) : List String → List String
  | [] => [x]
  | y :: ys =>
    if lexLt (pyLower x).data (pyLower y).data then x :: y :: ys
    else y :: insertLower x ys

def sortByLower (l : List String) : List String :=
  l.foldl (fun acc x => insertLower x acc) []

def get_vocabs (pd_data : List String) : List String :=
  let vocabs := pd_data.foldl (fun acc row => acc ++ splitOnSpace row) []
  let vocabs := dedupKeepFirst vocabs
  sortByLower vocabs

/-! ### Auxiliary predicates used in the statements -/

/-- A character list with no leading or trailing whitespace in which every
whitespace occurrence is a single space character between non-blank runs. -/
def collapsedAux (prevSpace : Bool) : List Char → Bool
  | [] => !prevSpace
  | c :: cs =>
    if c = ' ' then !prevSpace && collapsedAux true cs
    else !c.isWhitespace && collapsedAux false cs

def collapsed : List Char → Bool
  | [] => true
  | c :: cs => collapsedAux true (c :: cs)

/-- A configuration with every filter disabled, used for concrete runs. -/
def cfgOff : FilterConfig :=
  ⟨false, false, [], false, false, false, false, [], [], [], false, 0, false⟩

/-! Sanity checks of the executable model on concrete inputs. -/

example : pySplit "a  b " = ["a", "b"] := by decide
example : splitOnSpace "a  b" = ["a", "", "b"] := by decide
example : splitOnSpace "" = [""] := by decide
example : strip_punctuation "a,,b!" = "a b " := by decide
example : strip_multiple_whitespaces "a  b" = "a b" := by decide
example : strip_numeric "a1b22" = "ab" := by decide
example : strip_short "ab c abc" 3 = "abc" := by decide
example : custom_remove_stopwords "  the  cat the " ["the"] = "cat" := by decide
example : pyLower "AbC" = "abc" := by decide
example : map_synonyms "foo bar" [("foo", "baz")] = Except.ok "baz bar" := by rfl
example : map_synonyms "foobar" [("foo", "baz")] = Except.ok "foobar" := by rfl
example : map_synonyms "foo foo" [("foo", "baz")] = Except.ok "baz baz" := by rfl
example : get_vocabs ["a b", "B c"] = ["a", "b", "B", "c"] := by decide

/-! ## Shared helper lemmas -/

theorem build_eq_filter (cfg : FilterConfig) :
    build_custom_filter_list cfg = canonical_filter_order.filter (filter_enabled cfg) := by
  rcases cfg with ⟨l, m, tbl, p, w, n, r, bs, ad, rm, sh, ms, lz⟩
  cases l <;> cases m <;> cases p <;> cases w <;> cases n <;> cases r <;>
    cases sh <;> cases lz <;> rfl

theorem mem_insertLower {a x : String} : ∀ {l : List String},
    a ∈ insertLower x l ↔ a = x ∨ a ∈ l := by
  intro l; induction l with
  | nil => simp [insertLower]
  | cons y ys ih =>
    simp only [insertLower]
    split
    · simp
    · rw [List.mem_cons, List.mem_cons, ih]
      tauto

theorem mem_sortByLower_aux {a : String} :
    ∀ (l acc : List String), a ∈ l.foldl (fun acc x => insertLower x acc) acc ↔
      a ∈ acc ∨ a ∈ l := by
  intro l; induction l with
  | nil => simp
  | cons x xs ih =>
    intro acc
    rw [List.foldl_cons, ih, mem_insertLower, List.mem_cons]
    tauto

theorem mem_sortByLower {a : String} {l : List String} :
    a ∈ sortByLower l ↔ a ∈ l := by
  rw [sortByLower, mem_sortByLower_aux]
  simp

theorem mem_dedupAux {a : String} : ∀ {l seen : List String},
    a ∈ dedupAux seen l ↔ a ∈ l ∧ a ∉ seen := by
  intro l; induction l with
  | nil => simp [dedupAux]
  | cons x xs ih =>
    intro seen
    simp only [dedupAux]
    by_cases hx : x ∈ seen
    · rw [if_pos (List.elem_iff.mpr hx)]
      simp only [ih, List.mem_cons]
      constructor
      · rintro ⟨h1, h2⟩
        exact ⟨Or.inr h1, h2⟩
      · rintro ⟨h1 | h1, h2⟩
        · exact absurd (h1 ▸ hx) h2
        · exact ⟨h1, h2⟩
    · rw [if_neg (fun hc => hx (List.elem_iff.mp hc))]
      simp only [ih, List.mem_cons]
      constructor
      · rintro (rfl | ⟨h1, h2⟩)
        · exact ⟨Or.inl rfl, hx⟩
        · exact ⟨Or.inr h1, fun hc => h2 (Or.inr hc)⟩
      · rintro ⟨h1, h2⟩
        by_cases hax : a = x
        · exact Or.inl hax
        · rcases h1 with rfl | h1
          · exact absurd rfl hax
          · exact Or.inr ⟨h1, fun hc => hc.elim hax h2⟩

theorem mem_foldl_split {v : String} :
    ∀ (rows acc : List String),
      (v ∈ acc ∨ ∃ r ∈ rows, v ∈ splitOnSpace r) →
      v ∈ rows.foldl (fun acc row => acc ++ splitOnSpace row) acc := by
  intro rows; induction rows with
  | nil => intro acc h; simpa using h
  | cons r rows ih =>
    intro acc h
    rw [List.foldl_cons]
    apply ih
    rcases h with h | ⟨r2, hr2, hv⟩
    · exact Or.inl (List.mem_append.mpr (Or.inl h))
    · rcases List.mem_cons.mp hr2 with rfl | hr2
      · exact Or.inl (List.mem_append.mpr (Or.inr hv))
      · exact Or.inr ⟨r2, hr2, hv⟩

/-! ## Claim theorems -/

/-- C2: for every configuration of enable flags, the filter list equals the
canonical eight-step order restricted to the enabled steps; disabled steps are
absent, and the configuration record makes the result independent of any
order in which the flags were set. -/
theorem build_custom_filter_list_canonical (cfg : FilterConfig) :
    build_custom_filter_list cfg = canonical_filter_order.filter (filter_enabled cfg) :=
  build_eq_filter cfg

/-- C3: the stopword set built from base set B, add-list A and remove-list R
has exactly the members of (B union A) minus R; a word in both A and R is
absent. -/
theorem generate_custom_stopwords_spec (base to_add to_remove : List String) (w : String) :
    (w ∈ generate_custom_stopwords base to_add to_remove ↔
      ((w ∈ base ∨ w ∈ to_add) ∧ w ∉ to_remove)) ∧
    (w ∈ to_add → w ∈ to_remove → w ∉ generate_custom_stopwords base to_add to_remove) := by
  have hiff : w ∈ generate_custom_stopwords base to_add to_remove ↔
      ((w ∈ base ∨ w ∈ to_add) ∧ w ∉ to_remove) := by
    simp only [generate_custom_stopwords, List.mem_filter, List.mem_append,
      Bool.not_eq_true', ← Bool.not_eq_true, List.elem_iff]
  exact ⟨hiff, fun _ h2 hmem => ((hiff.mp hmem).2) h2⟩

theorem generate_custom_stopwords_spec_witness :
    ("both" ∈ generate_custom_stopwords ["base"] ["both"] ["both"] ↔
      (("both" ∈ ["base"] ∨ "both" ∈ ["both"]) ∧ "both" ∉ ["both"])) ∧
    ("both" ∈ ["both"] → "both" ∈ ["both"] →
      "both" ∉ generate_custom_stopwords ["base"] ["both"] ["both"]) :=
  generate_custom_stopwords_spec ["base"] ["both"] ["both"] "both"

/-- C7: with phrase generation disabled the phrase step returns its input
unchanged in both load and train modes and performs none of the effects
(loading, training, saving, exporting). -/
theorem generate_phrase_disabled (load_model : Bool)
    (loaded_model : List String → List String)
    (trained_model : List (List String) → List String → List String)
    (pd_data : List (List String)) :
    generate_phrase ⟨false⟩ load_model loaded_model trained_model pd_data = (pd_data, []) :=
  rfl

/-- C8: with an empty synonym table the substitution fails on every input
text: the alternation of zero patterns is the empty pattern, which matches the
empty string at position 0, and the callback looks up a key that the table
does not contain. -/
theorem map_synonyms_empty_table_error (text : String) :
    map_synonyms text [] = Except.error () := rfl

/-- C1 counterexample: the vocabulary of ["a b", "B c"] is not ["a", "b", "c"];
deduplication happens through a Python set, which distinguishes "b" and "B". -/
theorem get_vocabs_spec_example_false :
    get_vocabs ["a b", "B c"] ≠ ["a", "b", "c"] := by decide

/-- C1 amended: for processed strings ["a b", "B c"] the vocabulary has the
four tokens a, b, B, c: tokens are split on single spaces, deduplicated
exactly (case-sensitively) and sorted by the lower-cased key, so the
lower-cased output reads a, b, b, c. -/
theorem get_vocabs_case_sensitive :
    (get_vocabs ["a b", "B c"]).length = 4 ∧
    "a" ∈ get_vocabs ["a b", "B c"] ∧ "b" ∈ get_vocabs ["a b", "B c"] ∧
    "B" ∈ get_vocabs ["a b", "B c"] ∧ "c" ∈ get_vocabs ["a b", "B c"] ∧
    (get_vocabs ["a b", "B c"]).map pyLower = ["a", "b", "b", "c"] := by decide

/-- C9: when a processed string is the empty string, the vocabulary contains
the empty token, because splitting the empty string on a single space yields
one empty piece. -/
theorem get_vocabs_empty_token (pd_data : List String) (h : "" ∈ pd_data) :
    "" ∈ get_vocabs pd_data := by
  show "" ∈ sortByLower (dedupKeepFirst _)
  rw [mem_sortByLower, dedupKeepFirst, mem_dedupAux]
  refine ⟨?_, by simp⟩
  exact mem_foldl_split pd_data [] (Or.inr ⟨"", h, by simp [splitOnSpace, splitOnSpaceAux]⟩)

theorem get_vocabs_empty_token_witness :
    ("" ∈ ([""] : List String)) ∧ "" ∈ get_vocabs [""] :=
  ⟨by simp, get_vocabs_empty_token [""] (by simp)⟩

/-! ## whitespace normalisation performed by the stopword filter (C10) -/

theorem pySplitLAux_tokens : ∀ (cs acc : List Char),
    (∀ c ∈ acc, c.isWhitespace = false) →
    ∀ t ∈ pySplitLAux cs acc, t ≠ [] ∧ ∀ c ∈ t, c.isWhitespace = false := by
  intro cs
  induction cs with
  | nil =>
    intro acc hacc t ht
    simp only [pySplitLAux] at ht
    split at ht
    · simp at ht
    · rename_i hne
      rcases List.mem_singleton.mp ht with rfl
      refine ⟨?_, ?_⟩
      · intro h
        exact hne (by simp [List.isEmpty_iff, ← List.reverse_eq_nil_iff, h])
      · intro c hc
        exact hacc c (List.mem_reverse.mp hc)
  | cons c cs ih =>
    intro acc hacc t ht
    simp only [pySplitLAux] at ht
    split at ht
    · split at ht
      · exact ih [] (by simp) t ht
      · rename_i hne
        rcases List.mem_cons.mp ht with rfl | ht2
        · refine ⟨?_, ?_⟩
          · intro h
            exact hne (by simp [List.isEmpty_iff, ← List.reverse_eq_nil_iff, h])
          · intro d hd
            exact hacc d (List.mem_reverse.mp hd)
        · exact ih [] (by simp) t ht2
    · rename_i hcw
      refine ih (c :: acc) ?_ t ht
      intro d hd
      rcases List.mem_cons.mp hd with rfl | hd2
      · simpa using hcw
      · exact hacc d hd2

theorem collapsedAux_append (t : List Char) (ht : ∀ c ∈ t, c.isWhitespace = false)
    (hne : t ≠ []) :
    ∀ (prevSpace : Bool) (rest : List Char),
      collapsedAux prevSpace (t ++ rest) = collapsedAux false rest := by
  induction t with
  | nil => exact absurd rfl hne
  | cons c t ih =>
    intro prev rest
    have hc : c.isWhitespace = false := ht c (List.mem_cons_self _ _)
    have hcs : c ≠ ' ' := by
      intro h
      rw [h] at hc
      simp at hc
    cases t with
    | nil => simp [collapsedAux, hcs, hc]
    | cons d t' =>
      have := ih (fun x hx => ht x (List.mem_cons_of_mem _ hx)) (by simp) false rest
      simp only [List.cons_append, collapsedAux, if_neg hcs, hc]
      simpa using this

theorem collapsedAux_joinTokens :
    ∀ ts : List (List Char), ts ≠ [] →
      (∀ t ∈ ts, t ≠ [] ∧ ∀ c ∈ t, c.isWhitespace = false) →
      ∀ prevSpace, collapsedAux prevSpace (joinTokens ts) = true := by
  intro ts
  induction ts with
  | nil => intro h; exact absurd rfl h
  | cons t ts ih =>
    intro _ h prev
    obtain ⟨hne, hws⟩ := h t (List.mem_cons_self _ _)
    cases ts with
    | nil =>
      have := collapsedAux_append t hws hne prev []
      simpa [joinTokens] using this
    | cons u ts' =>
      show collapsedAux prev (t ++ ' ' :: joinTokens (u :: ts')) = true
      rw [collapsedAux_append t hws hne]
      show (!false && collapsedAux true (joinTokens (u :: ts'))) = true
      simp only [Bool.not_false, Bool.true_and]
      exact ih (by simp) (fun x hx => h x (List.mem_cons_of_mem _ hx)) true

/-- C10: the stopword-removal filter rejoins the surviving whitespace-split
tokens with single spaces, so its output never has leading or trailing
whitespace and every internal whitespace run is exactly one space — whatever
the configuration (in particular, with the whitespace-collapse filter
disabled). -/
theorem custom_remove_stopwords_collapsed (s : String) (stopwords : List String) :
    collapsed (custom_remove_stopwords s stopwords).data = true := by
  show collapsed (joinTokens ((pySplitL s).filter
    (fun w => !(stopwords.contains (String.mk w))))) = true
  have hts : ∀ t ∈ (pySplitL s).filter
      (fun w => !(stopwords.contains (String.mk w))),
      t ≠ [] ∧ ∀ c ∈ t, c.isWhitespace = false :=
    fun t ht => pySplitLAux_tokens s.data [] (by simp) t (List.mem_of_mem_filter ht)
  rcases hj : joinTokens ((pySplitL s).filter
      (fun w => !(stopwords.contains (String.mk w)))) with _ | ⟨c, cs⟩
  · rfl
  · have hts_ne : (pySplitL s).filter (fun w => !(stopwords.contains (String.mk w))) ≠ [] := by
      intro h
      rw [h] at hj
      exact List.noConfusion hj
    have := collapsedAux_joinTokens _ hts_ne hts true
    rw [hj] at this
    exact this

/-! ## The orchestrator (C5, C6) -/

theorem applySeries_ok {f : Record → Except Unit (List String)} :
    ∀ {l : List Record} {r : List (List String)}, applySeries f l = Except.ok r →
      r.length = l.length ∧
      ∀ i (hi : i < l.length) (hr : i < r.length),
        f (l.get ⟨i, hi⟩) = Except.ok (r.get ⟨i, hr⟩) := by
  intro l
  induction l with
  | nil =>
    intro r h
    simp only [applySeries, Except.ok.injEq] at h
    subst h
    exact ⟨rfl, fun i hi _ => absurd hi (Nat.not_lt_zero i)⟩
  | cons x xs ih =>
    intro r h
    cases hfx : f x with
    | error e =>
      simp only [applySeries, hfx] at h
      exact Except.noConfusion h
    | ok y =>
      cases hxs : applySeries f xs with
      | error e =>
        simp only [applySeries, hfx, hxs] at h
        exact Except.noConfusion h
      | ok ys =>
        simp only [applySeries, hfx, hxs, Except.ok.injEq] at h
        subst h
        obtain ⟨hlen, hget⟩ := ih hxs
        refine ⟨by simp [hlen], ?_⟩
        intro i hi hr
        cases i with
        | zero => simpa using hfx
        | succ j =>
          exact hget j (by simpa using hi) (by simpa using hr)

theorem applySeries_append_ok {f : Record → Except Unit (List String)} :
    ∀ {xs : List Record} {a : List (List String)},
      applySeries f xs = Except.ok a → ∀ l,
      applySeries f (xs ++ l) = Except.map (fun b => a ++ b) (applySeries f l) := by
  intro xs
  induction xs with
  | nil =>
    intro a h l
    simp only [applySeries, Except.ok.injEq] at h
    subst h
    simp only [List.nil_append]
    cases applySeries f l <;> rfl
  | cons x xs ih =>
    intro a h l
    cases hfx : f x with
    | error e =>
      simp only [applySeries, hfx] at h
      exact Except.noConfusion h
    | ok y =>
      cases hxs : applySeries f xs with
      | error e =>
        simp only [applySeries, hfx, hxs] at h
        exact Except.noConfusion h
      | ok ys =>
        simp only [applySeries, hfx, hxs, Except.ok.injEq] at h
        subst h
        show applySeries f (x :: (xs ++ l)) = _
        simp only [applySeries, hfx, ih hxs l]
        cases applySeries f l <;> rfl

theorem generate_phrase_fst (pc : PhraseConfig) (load_model : Bool)
    (loaded_model : List String → List String)
    (trained_model : List (List String) → List String → List String)
    (pd_data : List (List String)) :
    (generate_phrase pc load_model loaded_model trained_model pd_data).1 =
      pd_data.map (phrase_map pc load_model loaded_model trained_model pd_data) := by
  rcases pc with ⟨g⟩
  cases g <;> cases load_model <;> simp [generate_phrase, phrase_map]

/-- With synonym mapping and lemmatization disabled, every remaining filter
maps the empty string to the empty string, so an empty record produces the
empty token list. -/
theorem preprocess_string_empty (cfg : FilterConfig) (lem : String → String)
    (hm : cfg.map_synonym = false) (hl : cfg.lemmatize = false) :
    preprocess_string cfg lem (build_custom_filter_list cfg) (Record.str "") =
      Except.ok [] := by
  have h1 : FilterStep.map_synonym ∉ build_custom_filter_list cfg := by
    intro hc
    rw [build_eq_filter] at hc
    have := (List.mem_filter.mp hc).2
    simp [filter_enabled, hm] at this
  have h2 : FilterStep.lemmatize ∉ build_custom_filter_list cfg := by
    intro hc
    rw [build_eq_filter] at hc
    have := (List.mem_filter.mp hc).2
    simp [filter_enabled, hl] at this
  have hfs : ∀ fs : List FilterStep, FilterStep.map_synonym ∉ fs →
      FilterStep.lemmatize ∉ fs → apply_filters cfg lem fs "" = Except.ok "" := by
    intro fs
    induction fs with
    | nil => intro _ _; rfl
    | cons f fs ih =>
      intro hm2 hl2
      have hstep : apply_filters cfg lem (f :: fs) "" = apply_filters cfg lem fs "" := by
        cases f
        case map_synonym => exact absurd (List.mem_cons_self _ _) hm2
        case lemmatize => exact absurd (List.mem_cons_self _ _) hl2
        all_goals rfl
      rw [hstep]
      exact ih (fun hc => hm2 (List.mem_cons_of_mem _ hc))
        (fun hc => hl2 (List.mem_cons_of_mem _ hc))
  show (match apply_filters cfg lem (build_custom_filter_list cfg) "" with
    | Except.error e => Except.error e
    | Except.ok r => Except.ok (pySplit r)) = Except.ok []
  rw [hfs _ h1 h2]
  rfl

/-- C5 counterexample: a null record makes the whole batch fail with an error
instead of yielding an empty-result record at its position. -/
theorem preprocess_column_null_aborts :
    preprocess_column cfgOff (fun s => s) ⟨false⟩ false (fun x => x) (fun _ x => x)
      [Record.null] = Except.error () := rfl

/-- C5 amended: a record that is not a string aborts the whole batch with an
error; only an empty-string record (with synonym mapping and lemmatization
disabled, phrase generation off) yields an empty-result record at its
position, and the other records produce exactly what they produce on their
own. -/
theorem preprocess_column_empty_vs_null (cfg : FilterConfig) (lem : String → String)
    (load_model : Bool) (loaded_model : List String → List String)
    (trained_model : List (List String) → List String → List String)
    (xs ys : List Record) (a b : List (List String))
    (hm : cfg.map_synonym = false) (hl : cfg.lemmatize = false)
    (ha : applySeries (preprocess_string cfg lem (build_custom_filter_list cfg)) xs =
      Except.ok a)
    (hb : applySeries (preprocess_string cfg lem (build_custom_filter_list cfg)) ys =
      Except.ok b) :
    preprocess_column cfg lem ⟨false⟩ load_model loaded_model trained_model
        (xs ++ Record.str "" :: ys) =
      Except.ok (a.map (fun x => joinWords x) ++ "" :: b.map (fun x => joinWords x)) ∧
    preprocess_column cfg lem ⟨false⟩ load_model loaded_model trained_model
        (xs ++ Record.null :: ys) = Except.error () := by
  have hmid := preprocess_string_empty cfg lem hm hl
  constructor
  · have hs : applySeries (preprocess_string cfg lem (build_custom_filter_list cfg))
        (xs ++ Record.str "" :: ys) = Except.ok (a ++ [] :: b) := by
      rw [applySeries_append_ok ha]
      have : applySeries (preprocess_string cfg lem (build_custom_filter_list cfg))
          (Record.str "" :: ys) = Except.ok ([] :: b) := by
        simp only [applySeries, hmid, hb]
      rw [this]
      rfl
    show (match applySeries (fun x => preprocess_string cfg lem
        (build_custom_filter_list cfg) x) (xs ++ Record.str "" :: ys) with
      | Except.error e => Except.error e
      | Except.ok pd_data =>
        Except.ok (((generate_phrase ⟨false⟩ load_model loaded_model trained_model
          pd_data).1).map (fun x => joinWords x))) = _
    rw [hs]
    show Except.ok ((a ++ [] :: b).map (fun x => joinWords x)) = _
    simp only [List.map_append, List.map_cons]
    rfl
  · have hs2 : applySeries (preprocess_string cfg lem (build_custom_filter_list cfg))
        (xs ++ Record.null :: ys) = Except.error () := by
      rw [applySeries_append_ok ha]
      rfl
    show (match applySeries (fun x => preprocess_string cfg lem
        (build_custom_filter_list cfg) x) (xs ++ Record.null :: ys) with
      | Except.error e => Except.error e
      | Except.ok pd_data =>
        Except.ok (((generate_phrase ⟨false⟩ load_model loaded_model trained_model
          pd_data).1).map (fun x => joinWords x))) = _
    rw [hs2]

theorem preprocess_column_empty_vs_null_witness :
    (preprocess_column cfgOff (fun s => s) ⟨false⟩ false (fun x => x) (fun _ x => x)
        ([Record.str "x"] ++ Record.str "" :: [Record.str "y"]) =
      Except.ok (([["x"]] : List (List String)).map (fun x => joinWords x) ++
        "" :: ([["y"]] : List (List String)).map (fun x => joinWords x))) ∧
    preprocess_column cfgOff (fun s => s) ⟨false⟩ false (fun x => x) (fun _ x => x)
        ([Record.str "x"] ++ Record.null :: [Record.str "y"]) = Except.error () :=
  preprocess_column_empty_vs_null cfgOff (fun s => s) false (fun x => x) (fun _ x => x)
    [Record.str "x"] [Record.str "y"] [["x"]] [["y"]] rfl rfl (by rfl) (by rfl)

/-- C6: whenever preprocess_column succeeds, the output has the length of the
input, and the entry at every position is the whitespace-joined, phrase-mapped
filter result of the record at that same position. -/
theorem preprocess_column_pointwise (cfg : FilterConfig) (lem : String → String)
    (pc : PhraseConfig) (load_model : Bool)
    (loaded_model : List String → List String)
    (trained_model : List (List String) → List String → List String)
    (records : List Record) (out : List String)
    (h : preprocess_column cfg lem pc load_model loaded_model trained_model records =
      Except.ok out) :
    out.length = records.length ∧
    ∃ toks : List (List String),
      applySeries (preprocess_string cfg lem (build_custom_filter_list cfg)) records =
        Except.ok toks ∧
      toks.length = records.length ∧
      ∀ i (hi : i < records.length) (ht : i < toks.length) (ho : i < out.length),
        preprocess_string cfg lem (build_custom_filter_list cfg) (records.get ⟨i, hi⟩) =
          Except.ok (toks.get ⟨i, ht⟩) ∧
        out.get ⟨i, ho⟩ =
          joinWords (phrase_map pc load_model loaded_model trained_model toks
            (toks.get ⟨i, ht⟩)) := by
  cases hs : applySeries (fun x => preprocess_string cfg lem
      (build_custom_filter_list cfg) x) records with
  | error e =>
    rw [show preprocess_column cfg lem pc load_model loaded_model trained_model records =
      Except.error e by
        show (match applySeries (fun x => preprocess_string cfg lem
            (build_custom_filter_list cfg) x) records with
          | Except.error e => Except.error e
          | Except.ok pd_data =>
            Except.ok (((generate_phrase pc load_model loaded_model trained_model
              pd_data).1).map (fun x => joinWords x))) = _
        rw [hs]] at h
    exact Except.noConfusion h
  | ok toks =>
    have hcol : preprocess_column cfg lem pc load_model loaded_model trained_model records =
        Except.ok (((generate_phrase pc load_model loaded_model trained_model toks).1).map
          (fun x => joinWords x)) := by
      show (match applySeries (fun x => preprocess_string cfg lem
          (build_custom_filter_list cfg) x) records with
        | Except.error e => Except.error e
        | Except.ok pd_data =>
          Except.ok (((generate_phrase pc load_model loaded_model trained_model
            pd_data).1).map (fun x => joinWords x))) = _
      rw [hs]
    rw [hcol] at h
    have hout2 : out = ((generate_phrase pc load_model loaded_model trained_model
        toks).1).map (fun x => joinWords x) := (Except.ok.inj h).symm
    rw [generate_phrase_fst] at hout2
    obtain ⟨hlen, hget⟩ := applySeries_ok hs
    subst hout2
    refine ⟨by simp [hlen], toks, ?_, hlen, ?_⟩
    · rfl
    intro i hi ht ho
    refine ⟨hget i hi ht, ?_⟩
    rw [List.get_map, List.get_map]

theorem preprocess_column_pointwise_witness :
    (["a b"] : List String).length = ([Record.str "a b"] : List Record).length ∧
    ∃ toks : List (List String),
      applySeries (preprocess_string cfgOff (fun s => s)
          (build_custom_filter_list cfgOff)) [Record.str "a b"] = Except.ok toks ∧
      toks.length = ([Record.str "a b"] : List Record).length ∧
      ∀ i (hi : i < ([Record.str "a b"] : List Record).length) (ht : i < toks.length)
          (ho : i < (["a b"] : List String).length),
        preprocess_string cfgOff (fun s => s) (build_custom_filter_list cfgOff)
            (([Record.str "a b"] : List Record).get ⟨i, hi⟩) =
          Except.ok (toks.get ⟨i, ht⟩) ∧
        (["a b"] : List String).get ⟨i, ho⟩ =
          joinWords (phrase_map ⟨false⟩ false (fun x => x) (fun _ x => x) toks
            (toks.get ⟨i, ht⟩)) :=
  preprocess_column_pointwise cfgOff (fun s => s) ⟨false⟩ false (fun x => x)
    (fun _ x => x) [Record.str "a b"] ["a b"] (by rfl)

/-! ## Whole-word synonym replacement (C4)

The scanner lemmas below track re.sub through a text of the form
token space token space ... token, where every token is a nonempty run of
word characters, under a table whose keys are all of that same shape. -/

theorem except_map_map {e : Except Unit (List Char)} (f g : List Char → List Char) :
    (e.map f).map g = e.map (fun r => g (f r)) := by
  cases e <;> rfl

theorem isWordChar_space : isWordChar ' ' = false := rfl

/-- No alternative matches at a position that is not a word boundary. -/
theorem find?_eq_none_of_no_boundary (table : List (String × String))
    (prev : Option Char) (chars : List Char)
    (h : wordBoundary prev chars.head? = false) :
    (table.map Prod.fst).find? (fun k => matchKeyAt prev chars k.data) = none := by
  refine List.find?_eq_none.mpr ?_
  intro k _
  simp [matchKeyAt, h]

/-- No alternative with a nonempty all-word-character key matches at a space. -/
theorem find?_eq_none_at_space (table : List (String × String))
    (hg : ∀ p ∈ table, p.1.data ≠ [] ∧ ∀ c ∈ p.1.data, isWordChar c = true)
    (prev : Option Char) (cs : List Char) :
    (table.map Prod.fst).find? (fun k => matchKeyAt prev (' ' :: cs) k.data) = none := by
  refine List.find?_eq_none.mpr ?_
  intro k hk
  obtain ⟨p, hp, rfl⟩ := List.mem_map.mp hk
  obtain ⟨hne, hw⟩ := hg p hp
  intro hmatch
  have htake : (' ' :: cs).take p.1.data.length = p.1.data :=
    eq_of_beq (Bool.and_eq_true_iff.mp (Bool.and_eq_true_iff.mp hmatch).1).1
  rcases hd : p.1.data with _ | ⟨k0, k'⟩
  · exact hne hd
  · rw [hd] at htake
    simp only [List.length_cons, List.take_succ_cons, List.cons.injEq] at htake
    have : isWordChar k0 = true := hw k0 (by simp [hd])
    rw [← htake.1] at this
    exact Bool.false_ne_true (isWordChar_space ▸ this)

/-- No alternative with a nonempty key matches at the end of the text. -/
theorem find?_eq_none_at_nil (table : List (String × String))
    (hg : ∀ p ∈ table, p.1.data ≠ [] ∧ ∀ c ∈ p.1.data, isWordChar c = true)
    (prev : Option Char) :
    (table.map Prod.fst).find? (fun k => matchKeyAt prev [] k.data) = none := by
  refine List.find?_eq_none.mpr ?_
  intro k hk
  obtain ⟨p, hp, rfl⟩ := List.mem_map.mp hk
  obtain ⟨hne, _⟩ := hg p hp
  intro hmatch
  have htake : ([] : List Char).take p.1.data.length = p.1.data :=
    eq_of_beq (Bool.and_eq_true_iff.mp (Bool.and_eq_true_iff.mp hmatch).1).1
  rw [List.take_nil] at htake
  exact hne htake.symm

/-- The scanner returns the empty text unchanged. -/
theorem reSubAux_nil (table : List (String × String))
    (hg : ∀ p ∈ table, p.1.data ≠ [] ∧ ∀ c ∈ p.1.data, isWordChar c = true) :
    ∀ (fuel : Nat) (prev : Option Char), reSubAux table fuel prev [] = Except.ok [] := by
  intro fuel prev
  cases fuel with
  | zero => rfl
  | succ f =>
    simp only [reSubAux, find?_eq_none_at_nil table hg prev]

/-- Inside a run of word characters the scanner copies: no boundary, so no
match, character by character. -/
theorem reSubAux_copy_word (table : List (String × String)) :
    ∀ (t : List Char), (∀ c ∈ t, isWordChar c = true) →
    ∀ (p : Char), isWordChar p = true →
    ∀ (fuel : Nat), t.length ≤ fuel → ∀ (rest : List Char),
      reSubAux table fuel (some p) (t ++ rest) =
        (reSubAux table (fuel - t.length) (some (t.getLastD p)) rest).map
          (fun r => t ++ r) := by
  intro t
  induction t with
  | nil =>
    intro _ p _ fuel _ rest
    simp only [List.nil_append, List.length_nil, Nat.sub_zero, List.getLastD_nil]
    cases reSubAux table fuel (some p) rest <;> rfl
  | cons c t ih =>
    intro hw p hp fuel hfuel rest
    have hc : isWordChar c = true := hw c (List.mem_cons_self _ _)
    cases fuel with
    | zero => simp at hfuel
    | succ f =>
      have hfind : (table.map Prod.fst).find?
          (fun k => matchKeyAt (some p) ((c :: t) ++ rest) k.data) = none := by
        apply find?_eq_none_of_no_boundary
        simp [wordBoundary, optWord, hp, hc]
      simp only [List.cons_append] at hfind ⊢
      simp only [reSubAux, hfind]
      rw [ih (fun x hx => hw x (List.mem_cons_of_mem _ hx)) c hc f
        (by simpa using hfuel) rest]
      rw [except_map_map]
      have hlen : Nat.succ f - (c :: t).length = f - t.length := by
        simp only [List.length_cons]
        omega
      rw [hlen, List.getLastD_cons]

/-- At a space the scanner copies the space. -/
theorem reSubAux_space (table : List (String × String))
    (hg : ∀ p ∈ table, p.1.data ≠ [] ∧ ∀ c ∈ p.1.data, isWordChar c = true)
    (prev : Option Char) (cs : List Char) (f : Nat) :
    reSubAux table (Nat.succ f) prev (' ' :: cs) =
      (reSubAux table f (some ' ') cs).map (fun r => ' ' :: r) := by
  simp only [reSubAux, find?_eq_none_at_space table hg prev cs]

/-- At the head of a word token whose right context is a space or the end of
the text, an all-word-character alternative matches exactly when its key is
the whole token. -/
theorem matchKeyAt_token_iff (t k rest : List Char) (prev : Option Char)
    (ht : t ≠ []) (htw : ∀ c ∈ t, isWordChar c = true)
    (hk : k ≠ []) (hkw : ∀ c ∈ k, isWordChar c = true)
    (hp : optWord prev = false)
    (hrest : rest = [] ∨ ∃ cs, rest = ' ' :: cs) :
    (matchKeyAt prev (t ++ rest) k = true) ↔ k = t := by
  constructor
  · intro h
    obtain ⟨h12, h3⟩ := Bool.and_eq_true_iff.mp h
    obtain ⟨h1, _⟩ := Bool.and_eq_true_iff.mp h12
    have heq : (t ++ rest).take k.length = k := eq_of_beq h1
    rcases Nat.lt_trichotomy k.length t.length with hlen | hlen | hlen
    · exfalso
      have hlast : k.getLast? = some (k.getLast hk) := List.getLast?_eq_getLast k hk
      have hlw : isWordChar (k.getLast hk) = true := hkw _ (List.getLast_mem hk)
      have hidx : ((t ++ rest).drop k.length).head? = t[k.length]? := by
        rw [List.head?_drop, List.getElem?_append_left hlen]
      obtain ⟨d, hd⟩ : ∃ d, t[k.length]? = some d :=
        ⟨t[k.length], List.getElem?_eq_getElem hlen⟩
      have hdw : isWordChar d = true := htw d (List.getElem?_mem hd)
      rw [hidx, hd, hlast] at h3
      simp [wordBoundary, optWord, hlw, hdw] at h3
    · rw [hlen, List.take_left] at heq
      exact heq.symm
    · exfalso
      rcases hrest with rfl | ⟨cs, rfl⟩
      · rw [List.append_nil, List.take_of_length_le (Nat.le_of_lt hlen)] at heq
        rw [heq] at hlen
        exact Nat.lt_irrefl _ hlen
      · have hsp : ' ' ∈ k := by
          have : k[t.length]? = some ' ' := by
            rw [← heq, List.getElem?_take_of_lt hlen,
              List.getElem?_append_right (Nat.le_refl _)]
            simp
          exact List.getElem?_mem this
        have := hkw ' ' hsp
        rw [isWordChar_space] at this
        exact Bool.false_ne_true this
  · intro hkeq
    rw [hkeq]
    obtain ⟨c, t', rfl⟩ : ∃ c t', t = c :: t' := by
      cases t with
      | nil => exact absurd rfl ht
      | cons c t' => exact ⟨c, t', rfl⟩
    have hc : isWordChar c = true := htw c (List.mem_cons_self _ _)
    have hlast : (c :: t').getLast? = some ((c :: t').getLast (by simp)) :=
      List.getLast?_eq_getLast _ _
    have hlw : isWordChar ((c :: t').getLast (by simp)) = true :=
      htw _ (List.getLast_mem _)
    refine Bool.and_eq_true_iff.mpr ⟨Bool.and_eq_true_iff.mpr ⟨?_, ?_⟩, ?_⟩
    · rw [List.take_left]
      exact beq_self_eq_true _
    · have hh : ((c :: t') ++ rest).head? = some c := rfl
      have h3 : optWord (some c) = true := hc
      simp only [wordBoundary, hh, h3, hp]
      rfl
    · rw [List.drop_left, hlast]
      rcases hrest with rfl | ⟨cs, rfl⟩ <;>
        simp [wordBoundary, optWord, hlw, isWordChar_space]

/-- With an all-word-key table, the alternation at the head of a word token
finds exactly the key equal to the token, in table order. -/
theorem find?_token (table : List (String × String))
    (hg : ∀ p ∈ table, p.1.data ≠ [] ∧ ∀ c ∈ p.1.data, isWordChar c = true)
    (t rest : List Char) (prev : Option Char)
    (ht : t ≠ []) (htw : ∀ c ∈ t, isWordChar c = true)
    (hp : optWord prev = false)
    (hrest : rest = [] ∨ ∃ cs, rest = ' ' :: cs) :
    (table.map Prod.fst).find? (fun k => matchKeyAt prev (t ++ rest) k.data) =
      if String.mk t ∈ table.map Prod.fst then some (String.mk t) else none := by
  have hiff : ∀ k ∈ table.map Prod.fst,
      (matchKeyAt prev (t ++ rest) k.data = true ↔ k = String.mk t) := by
    intro k hkmem
    obtain ⟨p, hp2, rfl⟩ := List.mem_map.mp hkmem
    obtain ⟨hne2, hw2⟩ := hg p hp2
    rw [matchKeyAt_token_iff t p.1.data rest prev ht htw hne2 hw2 hp hrest]
    cases hp1 : p.1 with
    | mk d =>
      constructor
      · intro h
        have h2 : d = t := h
        rw [h2]
      · intro h
        exact congrArg String.data h
  revert hiff
  generalize table.map Prod.fst = l
  intro hiff
  induction l with
  | nil => simp
  | cons k l ih =>
    by_cases hpk : matchKeyAt prev (t ++ rest) k.data = true
    · have hk2 := (hiff k (List.mem_cons_self _ _)).mp hpk
      simp only [List.find?, hpk]
      rw [hk2, if_pos (List.mem_cons_self _ _)]
    · have hpk2 : matchKeyAt prev (t ++ rest) k.data = false := by
        simpa using hpk
      simp only [List.find?, hpk2]
      rw [ih (fun k2 hk2 => hiff k2 (List.mem_cons_of_mem _ hk2))]
      by_cases hmem : String.mk t ∈ l
      · rw [if_pos hmem, if_pos (List.mem_cons_of_mem _ hmem)]
      · rw [if_neg hmem, if_neg ?_]
        intro hc
        rcases List.mem_cons.mp hc with hc2 | hc2
        · exact hpk ((hiff k (List.mem_cons_self _ _)).mpr hc2.symm)
        · exact hmem hc2

theorem lookup_eq_none_iff (table : List (String × String)) (a : String) :
    table.lookup a = none ↔ a ∉ table.map Prod.fst := by
  induction table with
  | nil => simp
  | cons p l ih =>
    rcases p with ⟨k, v⟩
    by_cases h : a = k
    · subst h
      simp [List.lookup]
    · have hbeq : (a == k) = false := beq_eq_false_iff_ne.mpr h
      simp [List.lookup, hbeq, ih, h]

theorem lookup_isSome_of_mem (table : List (String × String)) (a : String)
    (h : a ∈ table.map Prod.fst) : ∃ v, table.lookup a = some v := by
  cases hl : table.lookup a with
  | none => exact absurd h ((lookup_eq_none_iff table a).mp hl)
  | some v => exact ⟨v, rfl⟩

/-- The scanner on a space-joined list of word tokens replaces each token that
is a key by its value (looked up dict-style, first binding) and keeps every
other token. -/
theorem reSubAux_tokens (table : List (String × String))
    (hg : ∀ p ∈ table, p.1.data ≠ [] ∧ ∀ c ∈ p.1.data, isWordChar c = true) :
    ∀ (tokens : List (List Char)),
      (∀ t ∈ tokens, t ≠ [] ∧ ∀ c ∈ t, isWordChar c = true) →
      ∀ (prev : Option Char), optWord prev = false →
      ∀ (fuel : Nat), (joinTokens tokens).length < fuel →
      reSubAux table fuel prev (joinTokens tokens) =
        Except.ok (joinTokens (tokens.map
          (fun t => ((table.lookup (String.mk t)).getD (String.mk t)).data))) := by
  intro tokens
  induction tokens with
  | nil =>
    intro _ prev _ fuel _
    simpa [joinTokens] using reSubAux_nil table hg fuel prev
  | cons t ts ih =>
    intro htoks prev hprev fuel hfuel
    obtain ⟨ht, htw⟩ := htoks t (List.mem_cons_self _ _)
    obtain ⟨c, t', rfl⟩ : ∃ c t', t = c :: t' := by
      cases t with
      | nil => exact absurd rfl ht
      | cons c t' => exact ⟨c, t', rfl⟩
    have hc : isWordChar c = true := htw c (List.mem_cons_self _ _)
    have ht'w : ∀ x ∈ t', isWordChar x = true :=
      fun x hx => htw x (List.mem_cons_of_mem _ hx)
    have hlc : (c :: t').length = t'.length + 1 := List.length_cons c t'
    cases ts with
    | nil =>
      have hjoin : joinTokens [c :: t'] = c :: t' := rfl
      rw [hjoin] at hfuel ⊢
      cases fuel with
      | zero => omega
      | succ f =>
        by_cases hmem : String.mk (c :: t') ∈ table.map Prod.fst
        · obtain ⟨v, hv⟩ := lookup_isSome_of_mem table _ hmem
          have hfind := find?_token table hg (c :: t') [] prev ht htw hprev (Or.inl rfl)
          rw [List.append_nil, if_pos hmem] at hfind
          simp only [reSubAux, hfind, hv]
          show (reSubAux table f (c :: t').getLast?
              ((c :: t').drop (c :: t').length)).map (fun r => v.data ++ r) = _
          rw [List.drop_length, reSubAux_nil table hg]
          simp [joinTokens, hv, Except.map]
        · have hlook : table.lookup (String.mk (c :: t')) = none :=
            (lookup_eq_none_iff table _).mpr hmem
          have hfind := find?_token table hg (c :: t') [] prev ht htw hprev (Or.inl rfl)
          rw [List.append_nil, if_neg hmem] at hfind
          simp only [reSubAux, hfind]
          have hcw := reSubAux_copy_word table t' ht'w c hc f (by omega) []
          rw [List.append_nil] at hcw
          rw [hcw, reSubAux_nil table hg]
          simp [joinTokens, hlook, Except.map]
    | cons u ts' =>
      have hjoin : joinTokens ((c :: t') :: u :: ts') =
          (c :: t') ++ ' ' :: joinTokens (u :: ts') := rfl
      rw [hjoin] at hfuel ⊢
      have hfl : (c :: t').length + 1 + (joinTokens (u :: ts')).length < fuel := by
        have h0 := hfuel
        simp only [List.length_append, List.length_cons] at h0 ⊢
        omega
      have hts : ∀ x ∈ u :: ts', x ≠ [] ∧ ∀ d ∈ x, isWordChar d = true :=
        fun x hx => htoks x (List.mem_cons_of_mem _ hx)
      have hrest2 : ((' ' :: joinTokens (u :: ts') : List Char) = []) ∨
          ∃ cs, (' ' :: joinTokens (u :: ts') : List Char) = ' ' :: cs := Or.inr ⟨_, rfl⟩
      cases fuel with
      | zero => omega
      | succ f =>
        by_cases hmem : String.mk (c :: t') ∈ table.map Prod.fst
        · obtain ⟨v, hv⟩ := lookup_isSome_of_mem table _ hmem
          have hfind := find?_token table hg (c :: t') (' ' :: joinTokens (u :: ts'))
            prev ht htw hprev hrest2
          rw [if_pos hmem] at hfind
          simp only [reSubAux, hfind, hv]
          show (reSubAux table f (c :: t').getLast?
              (((c :: t') ++ ' ' :: joinTokens (u :: ts')).drop (c :: t').length)).map
              (fun r => v.data ++ r) = _
          rw [List.drop_left]
          obtain ⟨f2, rfl⟩ : ∃ f2, f = Nat.succ f2 := ⟨f - 1, by omega⟩
          rw [reSubAux_space table hg _ _ f2]
          rw [ih hts (some ' ') (by decide) f2 (by omega)]
          simp [joinTokens, hv, Except.map]
        · have hlook : table.lookup (String.mk (c :: t')) = none :=
            (lookup_eq_none_iff table _).mpr hmem
          have hfind := find?_token table hg (c :: t') (' ' :: joinTokens (u :: ts'))
            prev ht htw hprev hrest2
          rw [if_neg hmem] at hfind
          rw [List.cons_append] at hfind ⊢
          simp only [reSubAux, hfind]
          rw [reSubAux_copy_word table t' ht'w c hc f (by omega)
            (' ' :: joinTokens (u :: ts'))]
          obtain ⟨f2, hf2⟩ : ∃ f2, f - t'.length = Nat.succ f2 :=
            ⟨f - t'.length - 1, by omega⟩
          rw [hf2, reSubAux_space table hg _ _ f2]
          rw [ih hts (some ' ') (by decide) f2 (by omega)]
          simp [joinTokens, hlook, Except.map]

/-- C4: on a text that is a space-separated sequence of word tokens, with a
table whose keys are word tokens, the synonym mapper replaces exactly the
tokens that equal a key by the mapped value and leaves every other token
(including tokens that merely contain a key as a substring) unchanged. -/
theorem map_synonyms_whole_word (table : List (String × String)) (tokens : List String)
    (hne : table ≠ [])
    (hkeys : ∀ p ∈ table, p.1.data ≠ [] ∧ ∀ c ∈ p.1.data, isWordChar c = true)
    (htoks : ∀ t ∈ tokens, t.data ≠ [] ∧ ∀ c ∈ t.data, isWordChar c = true) :
    map_synonyms (String.mk (joinTokens (tokens.map String.data))) table =
      Except.ok (String.mk (joinTokens (tokens.map
        (fun t => ((table.lookup t).getD t).data)))) := by
  have hisEmpty : table.isEmpty = false := by
    cases table with
    | nil => exact absurd rfl hne
    | cons p l => rfl
  show (if table.isEmpty then Except.error () else
    (reSubAux table ((String.mk (joinTokens (tokens.map String.data))).data.length + 1)
      none (String.mk (joinTokens (tokens.map String.data))).data).map
      (fun cs => String.mk cs)) = _
  rw [hisEmpty]
  show (reSubAux table ((joinTokens (tokens.map String.data)).length + 1)
      none (joinTokens (tokens.map String.data))).map (fun cs => String.mk cs) = _
  rw [reSubAux_tokens table hkeys (tokens.map String.data)
    (fun t htm => by
      obtain ⟨s, hs, rfl⟩ := List.mem_map.mp htm
      exact htoks s hs)
    none rfl _ (Nat.lt_succ_self _)]
  show Except.ok (String.mk (joinTokens ((tokens.map String.data).map
    (fun t => ((table.lookup (String.mk t)).getD (String.mk t)).data)))) = _
  rw [List.map_map]
  rfl

theorem map_synonyms_whole_word_witness :
    map_synonyms "foo bar" [("foo", "baz")] = Except.ok "baz bar" ∧
    map_synonyms "foobar" [("foo", "baz")] = Except.ok "foobar" := by
  constructor
  · exact map_synonyms_whole_word [("foo", "baz")] ["foo", "bar"]
      (by simp) (by decide) (by decide)
  · exact map_synonyms_whole_word [("foo", "baz")] ["foobar"]
      (by simp) (by decide) (by decide)

end FdcPre
